import Mathlib

/-!
Verification of the EnAr dataset translation pipeline core
(`core/postprocessing.py`, `core/preprocessing.py`, `core/rate_limiter.py`,
`core/pipeline.py`) against its natural-language specification.

The Python code is shallowly embedded: strings are Lean `String`s viewed as
lists of characters (Python `len` counts code points, as does
`String.length`), Python floats arising from length ratios are modelled as
rationals, `None`-able values as `Option`, and the effectful retry loop as a
pure function that also returns the trace of provider calls and sleeps.
-/

/-- Python whitespace (`str.isspace` / regex `\s` for `str` patterns):
ASCII whitespace, the C1 separators, NEL, NBSP and the Unicode space
separators. -/
def pyIsSpace (c : Char) : Bool :=
  c = ' ' || c = '\t' || c = '\n' || c = '\x0d' ||
  c = '\x0b' || c = '\x0c' ||
  c = '\x1c' || c = '\x1d' || c = '\x1e' || c = '\x1f' ||
  c = '\x85' || c = '\xa0' ||
  c.val = 0x1680 || (0x2000 ≤ c.val && c.val ≤ 0x200a) ||
  c.val = 0x2028 || c.val = 0x2029 || c.val = 0x202f ||
  c.val = 0x205f || c.val = 0x3000

/-- Python `str.strip()`: remove leading and trailing whitespace. -/
def pyStrip (s : String) : String :=
  ⟨((s.data.dropWhile pyIsSpace).reverse.dropWhile pyIsSpace).reverse⟩

/-- A character of the Arabic Unicode blocks used by the validator's regex
`[؀-ۿݐ-ݿࢠ-ࣿ]` (`postprocessing.py`). -/
def isArabicChar (c : Char) : Bool :=
  (0x0600 ≤ c.val && c.val ≤ 0x06FF) ||
  (0x0750 ≤ c.val && c.val ≤ 0x077F) ||
  (0x08A0 ≤ c.val && c.val ≤ 0x08FF)

/-- Does `hay` contain `needle` as a contiguous sublist?  Executable model of
`re.search` for a literal pattern. -/
def containsSub (needle : List Char) : List Char → Bool
  | [] => needle.isEmpty
  | c :: rest => needle.isPrefixOf (c :: rest) || containsSub needle rest

/- ------------------------------------------------------------------ -/
/- Configuration constants (`core/config.py`).                         -/
/- ------------------------------------------------------------------ -/

def MAX_RETRIES : ℕ := 3

def BACKOFF_MULTIPLIER : ℕ := 2

def CHECKPOINT_INTERVAL : ℕ := 50

def MIN_TRANSLATION_LENGTH : ℕ := 1

/-- Constant `MAX_LENGTH_RATIO = 3.0` in `config.py`. -/
def maxLenFrac : ℚ := 3

/-- Constant `MIN_LENGTH_RATIO = 0.3` in `config.py`. -/
def minLenFrac : ℚ := 3 / 10

/-- Constant `MIN_ARABIC_CHAR_RATIO = 0.5` in `config.py`. -/
def minArabicFrac : ℚ := 1 / 2

/- ------------------------------------------------------------------ -/
/- `core/postprocessing.py`                                            -/
/- ------------------------------------------------------------------ -/

/-- Model of `has_arabic_chars`: the text contains at least one Arabic-block
character. -/
def hasArabicChars (text : String) : Bool :=
  text.data.any isArabicChar

/-- Model of `get_arabic_char_ratio`: fraction of Arabic characters among the
non-whitespace characters (`re.sub(r'\s', '', text)` excludes whitespace),
with the denominator clamped to at least 1; `0.0` for the empty string. -/
def arabicCharFrac (text : String) : ℚ :=
  if text.data.isEmpty then 0
  else
    let arabicChars : ℕ := text.data.countP (fun c => isArabicChar c)
    let totalChars : ℕ := (text.data.filter (fun c => !pyIsSpace c)).length
    (arabicChars : ℚ) / (max totalChars 1 : ℕ)

/-- The literal alternatives of the three mojibake regexes in
`has_mojibake`: `Ã©|Ã¨|Ã |Ã§`, `â€™|â€œ|â€<U+FFFD>`, and `�`. -/
def mojibakeSignatures : List (List Char) :=
  [ ['\xc3', '\xa9'], ['\xc3', '\xa8'], ['\xc3', ' '], ['\xc3', '\xa7'],
    ['\xe2', '€', '™'], ['\xe2', '€', 'œ'],
    ['\xe2', '€', '�'],
    ['�'] ]

/-- Model of `has_mojibake`: some garbled-encoding signature occurs in the text. -/
def hasMojibake (text : String) : Bool :=
  mojibakeSignatures.any (fun p => containsSub p text.data)

/-- The five named checks computed by `validate_translation`. -/
structure Checks where
  not_empty : Bool
  has_arabic : Bool
  arabic_ratio_ok : Bool
  reasonable_length : Bool
  no_encoding_errors : Bool
deriving DecidableEq, Repr

/-- All five checks pass (`all(checks.values())`). -/
def Checks.allPass (c : Checks) : Bool :=
  c.not_empty && c.has_arabic && c.arabic_ratio_ok &&
  c.reasonable_length && c.no_encoding_errors

/-- Model of `validate_translation(original, translated)` returning
`(is_valid, checks)`. -/
def validateTranslation (original translated : String) : Bool × Checks :=
  let checks : Checks :=
    { not_empty := MIN_TRANSLATION_LENGTH ≤ (pyStrip translated).length
      has_arabic := hasArabicChars translated
      arabic_ratio_ok := minArabicFrac ≤ arabicCharFrac translated
      reasonable_length :=
        if 0 < original.length then
          let lengthFrac : ℚ := (translated.length : ℚ) / (original.length : ℚ)
          minLenFrac ≤ lengthFrac && lengthFrac ≤ maxLenFrac
        else true
      no_encoding_errors := !hasMojibake translated }
  (checks.allPass, checks)

/-- The character map of `clean_arabic_text`: `re.sub(r'[إأآا]', 'ا', ...)`
canonicalizes the Alef variants U+0625, U+0623, U+0622 (and U+0627 itself) to
U+0627; `re.sub('ة', 'ة', ...)` maps U+0629 to itself. -/
def normalizeArabicChar (c : Char) : Char :=
  if c = 'إ' || c = 'أ' || c = 'آ' || c = 'ا' then 'ا'
  else if c = 'ة' then 'ة'
  else c

/-- Model of `re.sub(r'\s+', ' ', text)`: collapse every run of whitespace into a
single space (`inRun` records whether the previous character was part of a
whitespace run already emitted as one space). -/
def collapseWsAux : Bool → List Char → List Char
  | _, [] => []
  | inRun, c :: rest =>
    if pyIsSpace c then
      if inRun then collapseWsAux true rest
      else ' ' :: collapseWsAux true rest
    else c :: collapseWsAux false rest

def collapseWhitespace (l : List Char) : List Char :=
  collapseWsAux false l

/-- Model of `clean_arabic_text`: Alef normalization, whitespace collapse, strip. -/
def cleanArabicText (text : String) : String :=
  if text.data.isEmpty then ""
  else pyStrip ⟨collapseWhitespace (text.data.map normalizeArabicChar)⟩

/-- Model of `postprocess_translation`. -/
def postprocessTranslation (translated : String) : String :=
  cleanArabicText translated

/- ------------------------------------------------------------------ -/
/- `core/preprocessing.py`                                             -/
/- ------------------------------------------------------------------ -/

/-- A control character removed by `clean_text`:
`[\x00-\x08\x0b-\x0c\x0e-\x1f\x7f-\x9f]` (newline, tab and CR survive). -/
def isStrippedControl (c : Char) : Bool :=
  (c.val ≤ 0x08) || c.val = 0x0b || c.val = 0x0c ||
  (0x0e ≤ c.val && c.val ≤ 0x1f) || (0x7f ≤ c.val && c.val ≤ 0x9f)

/-- Model of `re.sub(r'[ \t]+', ' ', text)`: collapse runs of spaces and tabs into a
single space. -/
def collapseSpaceTabAux : Bool → List Char → List Char
  | _, [] => []
  | inRun, c :: rest =>
    if c = ' ' || c = '\t' then
      if inRun then collapseSpaceTabAux true rest
      else ' ' :: collapseSpaceTabAux true rest
    else c :: collapseSpaceTabAux false rest

def collapseSpaceTab (l : List Char) : List Char :=
  collapseSpaceTabAux false l

/-- Model of `re.sub(r'\n\s*\n', '\n\n', text)`.  The regex, scanned left to right,
matches a newline followed greedily by whitespace ending at the last newline
of that whitespace run; the span is replaced by two newlines and scanning
resumes after the matched span.
`fuel` bounds the recursion depth; each step consumes at least one
character, so starting the scan with `fuel = length` computes the full
substitution. -/
def collapseBlankLinesAux : ℕ → List Char → List Char
  | 0, _ => []
  | _, [] => []
  | fuel + 1, c :: rest =>
    if c = '\n' then
      let wsRun := rest.takeWhile pyIsSpace
      let tailNoNl := wsRun.reverse.takeWhile (fun d => !(d = '\n'))
      if tailNoNl.length = wsRun.length then
        '\n' :: collapseBlankLinesAux fuel rest
      else
        '\n' :: '\n' ::
          collapseBlankLinesAux fuel (rest.drop (wsRun.length - tailNoNl.length))
    else c :: collapseBlankLinesAux fuel rest

def collapseBlankLines (l : List Char) : List Char :=
  collapseBlankLinesAux l.length l

/-- Model of `clean_text`: drop control characters, collapse horizontal whitespace,
collapse blank lines, strip. -/
def cleanText (text : String) : String :=
  if text.data.isEmpty then ""
  else
    pyStrip
      ⟨collapseBlankLines
        (collapseSpaceTab (text.data.filter (fun c => !isStrippedControl c)))⟩

/-- Table `PROVIDER_TERMS` from `config.py`, in dict insertion order. -/
def PROVIDER_TERMS : List (String × String) :=
  [ ("ChatGPT", "the AI assistant"),
    ("chatgpt", "the AI assistant"),
    ("Chat GPT", "the AI assistant"),
    ("OpenAI", "the AI provider"),
    ("openai", "the AI provider"),
    ("OpenAI\x27s", "the AI provider\x27s"),
    ("GPT-4", "the advanced language model"),
    ("GPT-3.5", "the language model"),
    ("GPT-3", "the language model"),
    ("gpt-4", "the advanced language model"),
    ("gpt-3.5", "the language model"),
    ("OpenAI API", "the AI API"),
    ("ChatGPT API", "the AI API") ]

/-- A regex word character (`\w`) as needed here: ASCII alphanumerics,
underscore, or an Arabic-block letter (the configured terms are ASCII, so
the approximation of the full Unicode `\w` class only affects which adjacent
characters count as word characters for `\b`). -/
def pyIsWordChar (c : Char) : Bool :=
  c.isAlphanum || c = '_' || isArabicChar c

/-- Word-ness of an optional character; positions outside the string count
as non-word for `\b`. -/
def optWordChar : Option Char → Bool
  | some c => pyIsWordChar c
  | none => false

/-- A `\b` boundary sits between two (optional) characters iff exactly one
of them is a word character. -/
def isWordBoundary (a b : Option Char) : Bool :=
  optWordChar a != optWordChar b

/-- Case-insensitive literal prefix match (`re.IGNORECASE` on an escaped
ASCII literal). -/
def ciPrefixMatch (term s : List Char) : Bool :=
  (s.take term.length).map Char.toLower == term.map Char.toLower

/-- One pass of `re.sub(r'\b' + re.escape(term) + r'\b', repl, text,
flags=re.IGNORECASE)`: scan left to right carrying the previous original
character, replace each non-overlapping boundary-delimited case-insensitive
occurrence, and continue after the matched span. -/
def subTermAux (term repl : List Char) : ℕ → Option Char → List Char → List Char
  | 0, _, _ => []
  | _, _, [] => []
  | fuel + 1, prev, c :: rest =>
    if 0 < term.length ∧
        (ciPrefixMatch term (c :: rest) &&
         isWordBoundary prev (some c) &&
         isWordBoundary ((c :: rest)[term.length - 1]?) ((c :: rest)[term.length]?)) = true
    then
      repl ++
        subTermAux term repl fuel ((c :: rest)[term.length - 1]?)
          ((c :: rest).drop term.length)
    else c :: subTermAux term repl fuel (some c) rest

/-- Word-boundary, case-insensitive substitution of one literal term; the
fuel `text.data.length` suffices since every step consumes at least one
character. -/
def subTerm (term repl : String) (text : String) : String :=
  ⟨subTermAux term.data repl.data text.data.length none text.data⟩

/-- The term list sorted by term length, longest first
(`sorted(mappings.items(), key=lambda x: len(x[0]), reverse=True)`; Python's
sort and `List.insertionSort` are both stable). -/
def sortedProviderTerms : List (String × String) :=
  PROVIDER_TERMS.insertionSort (fun a b => b.1.length ≤ a.1.length)

/-- Model of `normalize_provider_terms` with no custom mappings: apply the
substitutions longest term first. -/
def normalizeProviderTermsFn (text : String) : String :=
  sortedProviderTerms.foldl (fun acc p => subTerm p.1 p.2 acc) text

/-- Model of `preprocess_for_translation`. -/
def preprocessForTranslation (text : String) (normalizeTerms : Bool) : String :=
  let cleaned := cleanText text
  if normalizeTerms then normalizeProviderTermsFn cleaned else cleaned

/- ------------------------------------------------------------------ -/
/- `core/rate_limiter.py`                                              -/
/- ------------------------------------------------------------------ -/

/-- The rate limiter's state: the configured requests-per-minute bound and
the FIFO deque of admission timestamps (oldest first).  Timestamps are
rationals (seconds).  `requests_per_minute = 0` is not a constructible
Python state (`60.0 / 0` raises in `__init__`), so theorems assume
`1 ≤ rpm`. -/
structure RLState where
  rpm : ℕ
  timestamps : List ℚ
deriving DecidableEq, Repr

/-- Eviction loop `while self.timestamps and now - self.timestamps[0] > 60: popleft()`. -/
def evictOld (now : ℚ) (ts : List ℚ) : List ℚ :=
  ts.dropWhile (fun t => decide (60 < now - t))

/-- Model of `RateLimiter.acquire`, modelled as a function of the current time that
returns the slept duration and the successor state.  `time.sleep` is
idealized as advancing the clock by exactly the requested duration, after
which the appended timestamp is the post-sleep `time.time()`. -/
def RLState.acquire (st : RLState) (now : ℚ) : ℚ × RLState :=
  let ts1 := evictOld now st.timestamps
  if st.rpm ≤ ts1.length then
    match ts1 with
    | [] => (0, ⟨st.rpm, [now]⟩)
    | oldest :: _ =>
      let sleepTime := 60 - (now - oldest)
      if 0 < sleepTime then
        let now2 := now + sleepTime
        (sleepTime, ⟨st.rpm, evictOld now2 ts1 ++ [now2]⟩)
      else (0, ⟨st.rpm, ts1 ++ [now]⟩)
  else (0, ⟨st.rpm, ts1 ++ [now]⟩)

/-- Model of `RateLimiter.get_wait_time`, returning the reported wait and the
state as the method leaves it (the eviction loop mutates the deque). -/
def RLState.getWaitTime (st : RLState) (now : ℚ) : ℚ × RLState :=
  let ts1 := evictOld now st.timestamps
  if st.rpm ≤ ts1.length then
    match ts1 with
    | [] => (0, ⟨st.rpm, ts1⟩)
    | oldest :: _ => (max 0 (60 - (now - oldest)), ⟨st.rpm, ts1⟩)
  else (0, ⟨st.rpm, ts1⟩)

/- ------------------------------------------------------------------ -/
/- `core/pipeline.py`: `translate_with_retry`                          -/
/- ------------------------------------------------------------------ -/

/-- A provider adapter's return dictionary
`{success, translation, error}` (`translate(text, timeout)` never raises;
on `success=True` the `translation` field is present, on `success=False`
the `error` field is). -/
inductive ApiResult where
  | ok (translation : String)
  | err (error : String)
deriving DecidableEq, Repr

/-- An observable event of the retry loop: a provider call (with the text
sent and the provider's result) or a backoff sleep of the given number of
seconds. -/
inductive Ev where
  | call (api : String) (input : String) (res : ApiResult)
  | sleep (secs : ℕ)
deriving DecidableEq, Repr

/-- Is an event a provider call? -/
def isCallEv : Ev → Bool
  | Ev.call _ _ _ => true
  | Ev.sleep _ => false

/-- The outcome of one attempt against a provider whose behavior on its
`a`-th call is `beh a`: `some t` iff the call succeeded and
`validate_translation(text, t)` accepted (the validator runs against the
original, unpreprocessed `text`, as in the source). -/
def attemptOutcome (beh : ℕ → ApiResult) (text : String) (a : ℕ) : Option String :=
  match beh a with
  | .ok t => if (validateTranslation text t).1 then some t else none
  | .err _ => none

/-- The inner `for attempt in range(max_retries)` loop of
`translate_with_retry` for one provider, started at attempt number
`attempt` with `rem` attempts left: returns the event trace and, on a
validated success, the postprocessed translation.  Backoff
(`BACKOFF_MULTIPLIER ** attempt`) happens after a failed or invalid attempt
whenever `attempt < max_retries - 1`. -/
def tryApiAux (beh : ℕ → ApiResult) (text processed api : String)
    (maxRetries : ℕ) : ℕ → ℕ → List Ev × Option String
  | _, 0 => ([], none)
  | attempt, rem + 1 =>
    let callEv := Ev.call api processed (beh attempt)
    match attemptOutcome beh text attempt with
    | some t => ([callEv], some (postprocessTranslation t))
    | none =>
      let backoff : List Ev :=
        if attempt < maxRetries - 1 then [Ev.sleep (BACKOFF_MULTIPLIER ^ attempt)]
        else []
      let next := tryApiAux beh text processed api maxRetries (attempt + 1) rem
      (callEv :: backoff ++ next.1, next.2)

/-- The outer `for api_name, api_func in apis` loop: first validated
success wins; when every provider exhausts its attempts the result is
`(None, "failed", "All API attempts exhausted")`. -/
def tryApis (beh : String → ℕ → ApiResult) (text processed : String)
    (maxRetries : ℕ) : List String → List Ev × (Option String × String × Option String)
  | [] => ([], (none, "failed", some "All API attempts exhausted"))
  | api :: rest =>
    let r := tryApiAux (beh api) text processed api maxRetries 0 maxRetries
    match r.2 with
    | some t => (r.1, (some t, api, none))
    | none =>
      let r2 := tryApis beh text processed maxRetries rest
      (r.1 ++ r2.1, r2.2)

/-- The events of one failed-or-invalid attempt: the provider call followed
by the backoff sleep when another attempt remains. -/
def attemptEvs (beh : ℕ → ApiResult) (api processed : String)
    (maxRetries a : ℕ) : List Ev :=
  Ev.call api processed (beh a) ::
    (if a < maxRetries - 1 then [Ev.sleep (BACKOFF_MULTIPLIER ^ a)] else [])

/-- The event trace of `rem` consecutive failed-or-invalid attempts
starting at attempt number `att`. -/
def failEvs (beh : ℕ → ApiResult) (api processed : String)
    (maxRetries att rem : ℕ) : List Ev :=
  ((List.range rem).map (fun k => attemptEvs beh api processed maxRetries (att + k))).flatten

/-- The provider order built by `translate_with_retry`: the primary API
first, the other appended only when fallback is enabled (`primary_api`
values other than `"nvidia"` take the `else` branch, as in the source). -/
def apiOrder (primaryApi : String) (enableFallback : Bool) : List String :=
  if primaryApi = "nvidia" then
    "nvidia" :: (if enableFallback then ["fanar"] else [])
  else
    "fanar" :: (if enableFallback then ["nvidia"] else [])

/-- Model of `translate_with_retry(text, max_retries)` for a pipeline with no rate
limiter attached (`rate_limit_rpm=None`), over a provider behavior `beh`
giving each provider's result on its `a`-th call.  Returns the event trace
together with the `(translation, api_used, error)` triple. -/
def translateWithRetry (beh : String → ℕ → ApiResult) (primaryApi : String)
    (enableFallback normalizeTerms : Bool) (text : String) (maxRetries : ℕ) :
    List Ev × (Option String × String × Option String) :=
  let processed := preprocessForTranslation text normalizeTerms
  tryApis beh text processed maxRetries (apiOrder primaryApi enableFallback)

/- ------------------------------------------------------------------ -/
/- `core/pipeline.py`: dataframes, checkpoints, `translate_dataset`    -/
/- ------------------------------------------------------------------ -/

/-- A cell value of the tabular dataset: a string, an integer, or (as
`none` at the `Option CellVal` layer) a missing value. -/
inductive CellVal where
  | strV (s : String)
  | intV (n : ℤ)
deriving DecidableEq, Repr

/-- Python `str(row[col])`: a missing cell (pandas `NaN`) renders as the
literal string `"nan"`. -/
def pyStr : Option CellVal → String
  | some (.strV s) => s
  | some (.intV n) => toString n
  | none => "nan"

/-- A DataFrame: ordered columns, each a name with its cell list.  All
columns of a well-formed frame have the row count of the frame, which the
operations below take explicitly. -/
structure Frame where
  cols : List (String × List (Option CellVal))
deriving DecidableEq, Repr

def Frame.colNames (f : Frame) : List String :=
  f.cols.map (·.1)

def Frame.hasCol (f : Frame) (name : String) : Bool :=
  f.cols.any (fun p => p.1 == name)

def Frame.getCol (f : Frame) (name : String) : Option (List (Option CellVal)) :=
  (f.cols.find? (fun p => p.1 == name)).map (·.2)

/-- Assignment `df[name] = vals`: replace the column in place, or append it when it is
new (pandas appends new columns on the right). -/
def Frame.setCol (f : Frame) (name : String) (vals : List (Option CellVal)) : Frame :=
  if f.hasCol name then
    ⟨f.cols.map (fun p => if p.1 == name then (p.1, vals) else p)⟩
  else ⟨f.cols ++ [(name, vals)]⟩

/-- Assignment `df.at[idx, name] = v` for an existing column and in-range row. -/
def Frame.setAt (f : Frame) (name : String) (idx : ℕ) (v : Option CellVal) : Frame :=
  ⟨f.cols.map (fun p => if p.1 == name then (p.1, p.2.set idx v) else p)⟩

def Frame.cellAt (f : Frame) (name : String) (idx : ℕ) : Option (Option CellVal) :=
  (f.getCol name).bind (fun l => l[idx]?)

/-- Slice `df.iloc[:k]` columnwise: the first `k` rows. -/
def Frame.takeRows (f : Frame) (k : ℕ) : Frame :=
  ⟨f.cols.map (fun p => (p.1, p.2.take k))⟩

/-- Index alignment of `result_df[col] = checkpoint_df[col]` when the
assigned series has its own (shorter or longer) RangeIndex: rows of the
target beyond the source's length become `NaN`. -/
def alignTo (n : ℕ) (vals : List (Option CellVal)) : List (Option CellVal) :=
  vals.take n ++ List.replicate (n - vals.length) none

/-- The filename written by `_save_checkpoint` for `current_idx = k`. -/
def checkpointFileName (k : ℕ) : String :=
  "checkpoint_" ++ toString k ++ ".csv"

/-- Does a filename match the glob pattern `checkpoint_*.csv`? -/
def isCheckpointFile (nm : String) : Bool :=
  "checkpoint_".data.isPrefixOf nm.data && ".csv".data.reverse.isPrefixOf nm.data.reverse

/-- Python string comparison: lexicographic on code points. -/
def charListLe : List Char → List Char → Bool
  | [], _ => true
  | _ :: _, [] => false
  | a :: as, b :: bs =>
    if a.val < b.val then true
    else if b.val < a.val then false
    else charListLe as bs

def strLeB (a b : String) : Bool :=
  charListLe a.data b.data

def insertStr (x : String) : List String → List String
  | [] => [x]
  | y :: ys => if strLeB x y then x :: y :: ys else y :: insertStr x ys

/-- Ascending insertion sort by Python string order (`sorted(...)`). -/
def sortStrs : List String → List String
  | [] => []
  | x :: xs => insertStr x (sortStrs xs)

/-- Selection `sorted(self.checkpoint_dir.glob("checkpoint_*.csv"))[-1]`: the
lexicographically greatest matching filename (Python compares paths, hence
these filenames, as code-point strings). -/
def latestCheckpoint (files : List String) : Option String :=
  (sortStrs (files.filter isCheckpointFile)).getLast?

/-- Split a character list on a separator character, Python
`str.split(sep)` style (an empty input gives one empty group). -/
def splitOnChar (sep : Char) : List Char → List (List Char)
  | [] => [[]]
  | c :: rest =>
    match splitOnChar sep rest with
    | [] => [[]]
    | grp :: grps => if c = sep then [] :: grp :: grps else (c :: grp) :: grps

def joinWithChar (sep : Char) : List (List Char) → List Char
  | [] => []
  | [g] => g
  | g :: gs => g ++ sep :: joinWithChar sep gs

/-- Model of `int(...)` on a digit string. -/
def parseNatChars (l : List Char) : Option ℕ :=
  if l.isEmpty || !(l.all (fun c => c.isDigit)) then none
  else some (l.foldl (fun acc c => acc * 10 + (c.val.toNat - 48)) 0)

/-- Model of `pathlib.Path(...).stem`: the filename without its last suffix. -/
def pathStem (nm : String) : String :=
  let parts := splitOnChar '.' nm.data
  if parts.length ≤ 1 then nm else ⟨joinWithChar '.' parts.dropLast⟩

/-- Model of `int(checkpoint_file.stem.split('_')[1])`; a malformed name (on which
Python would raise) is modelled as 0. -/
def parseRowCount (nm : String) : ℕ :=
  match splitOnChar '_' (pathStem nm).data with
  | _ :: second :: _ => (parseNatChars second).getD 0
  | _ => 0

/-- The copy loop of `_load_checkpoint`:
`for col in checkpoint_df.columns: if col in result_df.columns:
result_df[col] = checkpoint_df[col]` over a result frame of `n` rows. -/
def copyCheckpointCols (n : ℕ) (result ckpt : Frame) : Frame :=
  ckpt.cols.foldl
    (fun acc p => if acc.hasCol p.1 then acc.setCol p.1 (alignTo n p.2) else acc)
    result

/-- Model of `_load_checkpoint` over a directory holding `files` (name, parsed
contents): select the named or latest checkpoint, copy its columns into the
result, and return the new result with the resume index parsed from the
filename; with no checkpoint available, return the result unchanged and 0. -/
def loadCheckpoint (n : ℕ) (result : Frame) (files : List (String × Frame))
    (name? : Option String) : Frame × ℕ :=
  match name? with
  | some nm =>
    match files.lookup nm with
    | some ck => (copyCheckpointCols n result ck, parseRowCount nm)
    | none => (result, 0)
  | none =>
    match latestCheckpoint (files.map (·.1)) with
    | none => (result, 0)
    | some nm =>
      match files.lookup nm with
      | some ck => (copyCheckpointCols n result ck, parseRowCount nm)
      | none => (result, 0)

/-- The `INIT` phase of `translate_dataset`: copy the input when
`preserve_all_columns`, then allocate `{col}_ar` and `{col}_api` columns
initialized to null. -/
def initColumns (df : Frame) (colsToTranslate : List String)
    (preserveAll : Bool) (n : ℕ) : Frame :=
  let base : Frame := if preserveAll then df else ⟨[]⟩
  colsToTranslate.foldl
    (fun acc c =>
      (acc.setCol (c ++ "_ar") (List.replicate n none)).setCol (c ++ "_api")
        (List.replicate n none))
    base

/-- The outcome of a `translate_dataset` run: the output frame, the saved
checkpoints (row count with the snapshot `df.iloc[:row_count]`), and the
texts handed to `translate_with_retry` in call order.  The statistics
bookkeeping of the source, which does not affect any of these, is not
modelled. -/
structure RunResult where
  frame : Frame
  checkpoints : List (ℕ × Frame)
  calls : List String
deriving DecidableEq, Repr

/-- One row of the `RUNNING` loop: for each requested column in order,
render the input cell with `str(...)`, call the translator, and on a truthy
translation (Python `if translation:`, false for `None` and for the empty
string) write the `{col}_ar` and `{col}_api` cells. -/
def processRow (translateCell : String → Option String × String × Option String)
    (df : Frame) (colsToTranslate : List String) (idx : ℕ)
    (acc : Frame × List String) : Frame × List String :=
  colsToTranslate.foldl
    (fun a col =>
      let text := pyStr ((df.cellAt col idx).getD none)
      let out := translateCell text
      let fr :=
        match out.1 with
        | some t =>
          if t = "" then a.1
          else
            (a.1.setAt (col ++ "_ar") idx (some (.strV t))).setAt
              (col ++ "_api") idx (some (.strV out.2.1))
        | none => a.1
      (fr, a.2 ++ [text]))
    acc

/-- One iteration of the `RUNNING` loop of `translate_dataset`: process the
row, then save a checkpoint when `(idx + 1) % CHECKPOINT_INTERVAL == 0`. -/
def dsStep (translateCell : String → Option String × String × Option String)
    (colsToTranslate : List String) (df : Frame)
    (acc : Frame × List (ℕ × Frame) × List String) (idx : ℕ) :
    Frame × List (ℕ × Frame) × List String :=
  let rowOut := processRow translateCell df colsToTranslate idx (acc.1, acc.2.2)
  let cks :=
    if (idx + 1) % CHECKPOINT_INTERVAL = 0 then
      acc.2.1 ++ [(idx + 1, rowOut.1.takeRows (idx + 1))]
    else acc.2.1
  (rowOut.1, cks, rowOut.2)

/-- Model of `translate_dataset` over an input frame `df` of `n` rows, a translator
for one cell's text, and a checkpoint directory: INIT, optional RESUMING,
then the row loop with a checkpoint saved every `CHECKPOINT_INTERVAL`
completed rows. -/
def translateDataset
    (translateCell : String → Option String × String × Option String)
    (colsToTranslate : List String) (preserveAll : Bool)
    (df : Frame) (n : ℕ) (resume : Bool)
    (files : List (String × Frame)) (name? : Option String) : RunResult :=
  let result0 := initColumns df colsToTranslate preserveAll n
  let startState :=
    if resume then loadCheckpoint n result0 files name? else (result0, 0)
  let fin := (List.range' startState.2 (n - startState.2)).foldl
    (dsStep translateCell colsToTranslate df) (startState.1, [], [])
  ⟨fin.1, fin.2.1, fin.2.2⟩

/- ------------------------------------------------------------------ -/
/- Concrete instances for the checkpoint round-trip and schema claims  -/
/- ------------------------------------------------------------------ -/

/-- A 60-row single-column input dataset (row `i` holds the integer `i`);
60 exceeds `CHECKPOINT_INTERVAL`, so a full run saves `checkpoint_50`. -/
def c5Input : Frame :=
  Frame.mk [("text", (List.range 60).map (fun i => some (CellVal.intV i)))]

/-- A deterministic always-successful translator cell function. -/
def c5Translate : String → Option String × String × Option String :=
  fun s => (some ("AR:" ++ s), "nvidia", none)

/-- The initial full run over the 60-row dataset. -/
def c5FirstRun : RunResult :=
  translateDataset c5Translate ["text"] true c5Input 60 false [] none

/-- The checkpoint snapshot that run saved at row count 50. -/
def c5Snapshot : Frame :=
  (c5FirstRun.checkpoints.headD (0, Frame.mk [])).2

/-- The same run resumed from `checkpoint_50.csv`. -/
def c5ResumedRun : RunResult :=
  translateDataset c5Translate ["text"] true c5Input 60 true
    [("checkpoint_50.csv", c5Snapshot)] none

/-- A 2-row result frame whose columns are `text` and `text_ar`. -/
def c6Result : Frame :=
  Frame.mk [("text", [some (.strV "a"), some (.strV "b")]), ("text_ar", [none, none])]

/-- A 1-row checkpoint whose columns (`text`, `extra`) do not match the
run's expected output columns (`text`, `text_ar`). -/
def c6Ckpt : Frame :=
  Frame.mk [("text", [some (.strV "a")]), ("extra", [some (.strV "x")])]

/- ================================================================== -/
/- Theorems                                                            -/
/- ================================================================== -/

lemma arabicFrac_check_iff (t : String) :
    (minArabicFrac ≤ arabicCharFrac t) ↔
      max ((t.data.filter (fun c => !pyIsSpace c)).length) 1 ≤
        2 * t.data.countP (fun c => isArabicChar c) := by
  unfold arabicCharFrac minArabicFrac
  by_cases he : t.data.isEmpty = true
  · have hd : t.data = [] := List.isEmpty_iff.mp he
    rw [if_pos he, hd]
    norm_num
  · rw [if_neg he]
    set A := t.data.countP (fun c => isArabicChar c) with hA
    set M := max ((t.data.filter (fun c => !pyIsSpace c)).length) 1 with hMdef
    have hM : (0 : ℚ) < (M : ℚ) := by
      have h1 : 1 ≤ M := le_max_right _ _
      exact_mod_cast Nat.lt_of_lt_of_le Nat.zero_lt_one h1
    rw [div_le_div_iff₀ (by norm_num) hM]
    constructor
    · intro h
      have h2 : (M : ℚ) ≤ ((2 * A : ℕ) : ℚ) := by push_cast; linarith
      exact_mod_cast h2
    · intro h
      have h2 : (M : ℚ) ≤ ((2 * A : ℕ) : ℚ) := by exact_mod_cast h
      push_cast at h2
      linarith

lemma length_check_iff (o t : String) :
    ((if 0 < o.length then
        (decide (minLenFrac ≤ (t.length : ℚ) / (o.length : ℚ)) &&
         decide ((t.length : ℚ) / (o.length : ℚ) ≤ maxLenFrac))
      else true) = true) ↔
      (o.length = 0 ∨ (3 * o.length ≤ 10 * t.length ∧ t.length ≤ 3 * o.length)) := by
  by_cases ho : 0 < o.length
  · have hoQ : (0 : ℚ) < (o.length : ℚ) := by exact_mod_cast ho
    simp only [ho, if_true, Bool.and_eq_true, decide_eq_true_eq]
    unfold minLenFrac maxLenFrac
    rw [div_le_iff₀ hoQ, le_div_iff₀ hoQ]
    constructor
    · rintro ⟨h1, h2⟩
      refine Or.inr ⟨?_, ?_⟩
      · have : ((3 * o.length : ℕ) : ℚ) ≤ ((10 * t.length : ℕ) : ℚ) := by
          push_cast; linarith
        exact_mod_cast this
      · have : ((t.length : ℕ) : ℚ) ≤ ((3 * o.length : ℕ) : ℚ) := by
          push_cast; linarith
        exact_mod_cast this
    · rintro (h | ⟨h1, h2⟩)
      · omega
      · constructor
        · have : ((3 * o.length : ℕ) : ℚ) ≤ ((10 * t.length : ℕ) : ℚ) := by
            exact_mod_cast h1
          push_cast at this
          linarith
        · have : ((t.length : ℕ) : ℚ) ≤ ((3 * o.length : ℕ) : ℚ) := by
            exact_mod_cast h2
          push_cast at this
          linarith
  · simp only [ho, if_false]
    simp only [true_iff]
    exact Or.inl (by omega)

lemma validate_iff_core (o t : String) :
    (validateTranslation o t).1 = true ↔
      (1 ≤ (pyStrip t).length ∧
       (∃ c ∈ t.data, isArabicChar c = true) ∧
       max ((t.data.filter (fun c => !pyIsSpace c)).length) 1 ≤
         2 * t.data.countP (fun c => isArabicChar c) ∧
       (o.length = 0 ∨ (3 * o.length ≤ 10 * t.length ∧ t.length ≤ 3 * o.length)) ∧
       hasMojibake t = false) := by
  simp only [validateTranslation, Checks.allPass]
  simp only [Bool.and_eq_true, decide_eq_true_eq]
  rw [MIN_TRANSLATION_LENGTH]
  constructor
  · rintro ⟨⟨⟨⟨h1, h2⟩, h3⟩, h4⟩, h5⟩
    refine ⟨h1, ?_, ?_, ?_, ?_⟩
    · simpa [hasArabicChars, List.any_eq_true] using h2
    · exact (arabicFrac_check_iff t).mp (by exact_mod_cast h3)
    · exact (length_check_iff o t).mp (by simpa using h4)
    · simpa [Bool.not_eq_true'] using h5
  · rintro ⟨h1, h2, h3, h4, h5⟩
    refine ⟨⟨⟨⟨h1, ?_⟩, ?_⟩, ?_⟩, ?_⟩
    · simpa [hasArabicChars, List.any_eq_true] using h2
    · exact_mod_cast (arabicFrac_check_iff t).mpr h3
    · simpa using (length_check_iff o t).mpr h4
    · simpa [Bool.not_eq_true'] using h5

/-- C3: `validate_translation` accepts iff all five checks pass — nonempty
stripped translation, at least one Arabic-block character, Arabic
characters at least half of the non-whitespace characters, length within
ratio bounds 0.3–3.0 (trivially satisfied for an empty original), and no
mojibake signature; consequently an empty translation is always rejected,
and an identity "translation" with no Arabic script is always rejected. -/
theorem validate_is_valid_iff :
    (∀ o t, (validateTranslation o t).1 = true ↔
      (1 ≤ (pyStrip t).length ∧
       (∃ c ∈ t.data, isArabicChar c = true) ∧
       max ((t.data.filter (fun c => !pyIsSpace c)).length) 1 ≤
         2 * t.data.countP (fun c => isArabicChar c) ∧
       (o.length = 0 ∨ (3 * o.length ≤ 10 * t.length ∧ t.length ≤ 3 * o.length)) ∧
       hasMojibake t = false)) ∧
    (∀ t, (validateTranslation t "").1 = false) ∧
    (∀ t, (∀ c ∈ t.data, isArabicChar c = false) →
      (validateTranslation t t).1 = false) := by
  refine ⟨fun o t => validate_iff_core o t, fun t => ?_, fun t h => ?_⟩
  · have h0 : (pyStrip "").length = 0 := rfl
    simp [validateTranslation, Checks.allPass, MIN_TRANSLATION_LENGTH, h0]
  · have h2 : hasArabicChars t = false := by
      rw [hasArabicChars]
      rw [List.any_eq_false]
      intro c hc
      simp [h c hc]
    simp [validateTranslation, Checks.allPass, h2]

/-- Witness for C3 at concrete inputs: a real Arabic translation is
accepted; an unchanged English text is rejected. -/
theorem validate_is_valid_iff_witness :
    (validateTranslation "Hello, how are you?" "مرحبا، كيف حالك؟").1 = true ∧
    (validateTranslation "Arabic test" "Arabic test").1 = false :=
  ⟨(validate_is_valid_iff.1 "Hello, how are you?" "مرحبا، كيف حالك؟").mpr (by decide),
   validate_is_valid_iff.2.2 "Arabic test" (by decide)⟩

/-- C4: with `checkpoint_50.csv` and `checkpoint_100.csv` both present,
the "latest checkpoint" selection of `_load_checkpoint`
(`sorted(glob("checkpoint_*.csv"))[-1]`) picks `checkpoint_50.csv` — the
lexicographically greatest filename, not the highest row count — and the
resulting resume index is 50, not 100. -/
theorem latestCheckpoint_lexicographic_bug :
    latestCheckpoint ["checkpoint_50.csv", "checkpoint_100.csv"] =
      some "checkpoint_50.csv" ∧
    (loadCheckpoint 200 ⟨[]⟩
      [("checkpoint_50.csv", ⟨[]⟩), ("checkpoint_100.csv", ⟨[]⟩)] none).2 = 50 := by
  constructor <;> rfl

/-- C8 counterexample: `get_wait_time` does mutate the limiter's deque —
with a stale timestamp present, the state after the call differs from the
state before it. -/
theorem getWaitTime_mutates_state :
    (RLState.getWaitTime ⟨1, [0]⟩ 100).2 ≠ RLState.mk 1 [0] := by
  have h : evictOld 100 [(0 : ℚ)] = [] := by
    rw [evictOld]
    norm_num [List.dropWhile]
  rw [RLState.getWaitTime]
  simp only [h]
  intro hcontra
  have := congrArg RLState.timestamps hcontra
  simp at this

lemma evictOld_eq_filter (now : ℚ) (ts : List ℚ) (hs : ts.Sorted (· ≤ ·)) :
    evictOld now ts = ts.filter (fun t => decide (now - t ≤ 60)) := by
  induction ts with
  | nil => rfl
  | cons a l ih =>
    rw [List.sorted_cons] at hs
    obtain ⟨ha, hl⟩ := hs
    by_cases h : 60 < now - a
    · have hfa : ¬ (now - a ≤ 60) := not_le.mpr h
      simp only [evictOld, List.dropWhile_cons, List.filter_cons, h, hfa,
        decide_True, decide_False, if_true, if_false]
      exact ih hl
    · have hfa : now - a ≤ 60 := not_lt.mp h
      have hall : ∀ t ∈ l, (fun t => decide (now - t ≤ 60)) t = true := by
        intro t ht
        have := ha t ht
        simp only [decide_eq_true_eq]
        linarith
      simp only [evictOld, List.dropWhile_cons, List.filter_cons, h, hfa,
        decide_True, decide_False, if_true, if_false]
      rw [List.filter_eq_self.mpr hall]
      simp

/-- C7: for a sorted window of past timestamps, `acquire` admits
immediately (no sleep) and appends `now` when fewer than `rpm` timestamps
lie in the trailing 60-second window; at capacity it sleeps
`60 − (now − oldest)` seconds — clamped to be never negative and never more
than 60 — and then records the post-sleep current time as the newest
timestamp. -/
theorem acquire_rate_limit (st : RLState) (now : ℚ)
    (hrpm : 1 ≤ st.rpm)
    (hsort : st.timestamps.Sorted (· ≤ ·))
    (hle : ∀ t ∈ st.timestamps, t ≤ now) :
    ((st.timestamps.filter (fun t => decide (now - t ≤ 60))).length < st.rpm →
      st.acquire now =
        (0, ⟨st.rpm, st.timestamps.filter (fun t => decide (now - t ≤ 60)) ++ [now]⟩)) ∧
    (st.rpm ≤ (st.timestamps.filter (fun t => decide (now - t ≤ 60))).length →
      (st.acquire now).1 =
        max 0 (60 - (now -
          (st.timestamps.filter (fun t => decide (now - t ≤ 60))).headD 0)) ∧
      0 ≤ (st.acquire now).1 ∧ (st.acquire now).1 ≤ 60 ∧
      (st.acquire now).2.timestamps.getLast? = some (now + (st.acquire now).1)) := by
  have hev : evictOld now st.timestamps =
      st.timestamps.filter (fun t => decide (now - t ≤ 60)) :=
    evictOld_eq_filter now st.timestamps hsort
  set F := st.timestamps.filter (fun t => decide (now - t ≤ 60)) with hFdef
  constructor
  · intro hlt
    have hcond : ¬ st.rpm ≤ F.length := not_le.mpr hlt
    simp only [RLState.acquire, hev, hcond, if_false]
  · intro hcap
    have hFne : F ≠ [] := by
      intro hnil
      rw [hnil] at hcap
      simp at hcap
      omega
    obtain ⟨oldest, rest, hF⟩ := List.exists_cons_of_ne_nil hFne
    have holdF : oldest ∈ F := by rw [hF]; exact List.mem_cons_self _ _
    have hold60 : now - oldest ≤ 60 := by
      have := List.of_mem_filter holdF
      simpa using this
    have holdnow : oldest ≤ now := by
      have : oldest ∈ st.timestamps := List.mem_of_mem_filter holdF
      exact hle oldest this
    have hs0 : 0 ≤ 60 - (now - oldest) := by linarith
    have hs60 : 60 - (now - oldest) ≤ 60 := by linarith
    have hhead : F.headD 0 = oldest := by rw [hF]; rfl
    by_cases hpos : 0 < 60 - (now - oldest)
    · have hres : st.acquire now =
          (60 - (now - oldest),
           ⟨st.rpm, evictOld (now + (60 - (now - oldest))) F ++
             [now + (60 - (now - oldest))]⟩) := by
        simp only [RLState.acquire, hev, hF, hpos, if_true]
        rw [if_pos (hF ▸ hcap)]
      rw [hres, hhead]
      refine ⟨?_, by simpa using hs0, by simpa using hs60, ?_⟩
      · simp [max_eq_right hs0]
      · simp [List.getLast?_concat]
    · have hz : 60 - (now - oldest) = 0 := le_antisymm (not_lt.mp hpos) hs0
      have hres : st.acquire now = (0, ⟨st.rpm, F ++ [now]⟩) := by
        simp only [RLState.acquire, hev, hF, hpos, if_false]
        rw [ite_self]
      rw [hres, hhead, hz]
      refine ⟨by simp, le_refl 0, by norm_num, ?_⟩
      simp [List.getLast?_concat]

/-- Witness for C7: at capacity (2 rpm, admissions at times 0 and 1, now
2) the third `acquire` sleeps 58 seconds and records timestamp 60; under
capacity (1 rpm, one stale admission) it returns without sleeping. -/
theorem acquire_rate_limit_witness :
    (RLState.acquire ⟨2, [0, 1]⟩ 2).1 = 58 ∧
    (RLState.acquire ⟨2, [0, 1]⟩ 2).2.timestamps.getLast? = some 60 ∧
    RLState.acquire ⟨1, [0]⟩ 100 = (0, ⟨1, [100]⟩) := by
  have hfil : ([0, 1] : List ℚ).filter (fun t => decide ((2 : ℚ) - t ≤ 60)) = [0, 1] := by
    norm_num [List.filter]
  have h := acquire_rate_limit ⟨2, [0, 1]⟩ 2 (by norm_num)
    (by norm_num [List.sorted_cons])
    (by
      intro t ht
      simp only [List.mem_cons, List.mem_singleton, List.not_mem_nil] at ht
      rcases ht with h1 | h1 | h1
      · rw [h1]; norm_num
      · rw [h1]; norm_num
      · exact absurd h1 (by simp))
  obtain ⟨-, h2⟩ := h
  rw [hfil] at h2
  have h3 := h2 (by norm_num)
  obtain ⟨ha, -, -, hd⟩ := h3
  have hval : (RLState.acquire ⟨2, [0, 1]⟩ 2).1 = 58 := by
    rw [ha]
    norm_num
  refine ⟨hval, ?_, ?_⟩
  · rw [hd, hval]
    norm_num
  · have hfil1 : ([0] : List ℚ).filter (fun t => decide ((100 : ℚ) - t ≤ 60)) = [] := by
      norm_num [List.filter]
    have h1 := acquire_rate_limit ⟨1, [0]⟩ 100 (by norm_num)
      (by simp [List.sorted_cons])
      (by
        intro t ht
        simp only [List.mem_singleton] at ht
        rw [ht]
        norm_num)
    obtain ⟨hunder, -⟩ := h1
    rw [hfil1] at hunder
    have := hunder (by norm_num)
    simpa using this

/-- C8 (amended): `get_wait_time` reports exactly the duration `acquire`
would sleep right now, without blocking; it appends nothing, but it does
evict timestamps older than 60 seconds, leaving precisely the in-window
timestamps. -/
theorem getWaitTime_reports_wait (st : RLState) (now : ℚ)
    (hrpm : 1 ≤ st.rpm)
    (hsort : st.timestamps.Sorted (· ≤ ·)) :
    (st.getWaitTime now).1 = (st.acquire now).1 ∧
    (st.getWaitTime now).2.rpm = st.rpm ∧
    (st.getWaitTime now).2.timestamps =
      st.timestamps.filter (fun t => decide (now - t ≤ 60)) ∧
    (st.getWaitTime now).1 =
      (if st.rpm ≤ (st.timestamps.filter (fun t => decide (now - t ≤ 60))).length
       then max 0 (60 - (now -
         (st.timestamps.filter (fun t => decide (now - t ≤ 60))).headD 0))
       else 0) := by
  have hev : evictOld now st.timestamps =
      st.timestamps.filter (fun t => decide (now - t ≤ 60)) :=
    evictOld_eq_filter now st.timestamps hsort
  set F := st.timestamps.filter (fun t => decide (now - t ≤ 60)) with hFdef
  by_cases hcap : st.rpm ≤ F.length
  · have hFne : F ≠ [] := by
      intro hnil
      rw [hnil] at hcap
      simp at hcap
      omega
    obtain ⟨oldest, rest, hF⟩ := List.exists_cons_of_ne_nil hFne
    have hgw : st.getWaitTime now = (max 0 (60 - (now - oldest)), ⟨st.rpm, F⟩) := by
      simp only [RLState.getWaitTime, hev, hF]
      rw [if_pos (hF ▸ hcap)]
    have hacq1 : (st.acquire now).1 = max 0 (60 - (now - oldest)) := by
      by_cases hpos : 0 < 60 - (now - oldest)
      · have : st.acquire now =
            (60 - (now - oldest),
             ⟨st.rpm, evictOld (now + (60 - (now - oldest))) F ++
               [now + (60 - (now - oldest))]⟩) := by
          simp only [RLState.acquire, hev, hF, hpos, if_true]
          rw [if_pos (hF ▸ hcap)]
        rw [this]
        exact (max_eq_right (le_of_lt hpos)).symm
      · have : st.acquire now = (0, ⟨st.rpm, F ++ [now]⟩) := by
          simp only [RLState.acquire, hev, hF, hpos, if_false]
          rw [ite_self]
        rw [this]
        have := not_lt.mp hpos
        simp [max_eq_left this]
    have hhead : F.headD 0 = oldest := by rw [hF]; rfl
    rw [hgw]
    refine ⟨hacq1.symm, rfl, rfl, ?_⟩
    rw [if_pos hcap, hhead]
  · have hgw : st.getWaitTime now = (0, ⟨st.rpm, F⟩) := by
      simp only [RLState.getWaitTime, hev, hcap, if_false]
    have hacq : st.acquire now = (0, ⟨st.rpm, F ++ [now]⟩) := by
      simp only [RLState.acquire, hev, hcap, if_false]
    rw [hgw, hacq, if_neg hcap]
    exact ⟨rfl, rfl, rfl, rfl⟩

/-- Witness for C8: at capacity (1 rpm, admission at 50, now 70) the
report is 40 seconds — the same duration `acquire` would sleep — and the
in-window deque `[50]` is unchanged. -/
theorem getWaitTime_reports_wait_witness :
    (RLState.getWaitTime ⟨1, [50]⟩ 70).1 = 40 ∧
    (RLState.getWaitTime ⟨1, [50]⟩ 70).1 = (RLState.acquire ⟨1, [50]⟩ 70).1 ∧
    (RLState.getWaitTime ⟨1, [50]⟩ 70).2.timestamps = [50] := by
  have hfil : ([50] : List ℚ).filter (fun t => decide ((70 : ℚ) - t ≤ 60)) = [50] := by
    norm_num [List.filter]
  have h := getWaitTime_reports_wait ⟨1, [50]⟩ 70 (by norm_num)
    (by simp [List.sorted_cons])
  obtain ⟨h1, -, h3, h4⟩ := h
  rw [hfil] at h3 h4
  have hv : (RLState.getWaitTime ⟨1, [50]⟩ 70).1 = 40 := by
    rw [h4]
    norm_num
  exact ⟨hv, h1, h3⟩

lemma failEvs_succ (beh : ℕ → ApiResult) (api processed : String)
    (mr att k : ℕ) :
    failEvs beh api processed mr att (k + 1) =
      attemptEvs beh api processed mr att ++ failEvs beh api processed mr (att + 1) k := by
  unfold failEvs
  rw [List.range_succ_eq_map]
  simp only [List.map_cons, List.flatten_cons, List.map_map, Nat.add_zero]
  congr 2
  apply List.map_congr_left
  intro x hx
  simp only [Function.comp]
  congr 1
  omega

lemma tryApiAux_allFail (beh : ℕ → ApiResult) (text processed api : String)
    (mr : ℕ) :
    ∀ (rem att : ℕ), (∀ k, k < rem → attemptOutcome beh text (att + k) = none) →
      tryApiAux beh text processed api mr att rem =
        (failEvs beh api processed mr att rem, none) := by
  intro rem
  induction rem with
  | zero => intro att _; rfl
  | succ rem ih =>
    intro att h
    have h0 : attemptOutcome beh text att = none := by
      simpa using h 0 (Nat.succ_pos rem)
    have h' : ∀ k, k < rem → attemptOutcome beh text ((att + 1) + k) = none := by
      intro k hk
      have := h (k + 1) (by omega)
      rwa [show att + (k + 1) = att + 1 + k from by omega] at this
    simp only [tryApiAux, h0]
    rw [ih (att + 1) h']
    rw [failEvs_succ]
    simp [attemptEvs]

lemma tryApiAux_firstValid (beh : ℕ → ApiResult) (text processed api : String)
    (mr : ℕ) :
    ∀ (a rem att : ℕ) (t : String), a < rem →
      (∀ k, k < a → attemptOutcome beh text (att + k) = none) →
      attemptOutcome beh text (att + a) = some t →
      tryApiAux beh text processed api mr att rem =
        (failEvs beh api processed mr att a ++
          [Ev.call api processed (beh (att + a))],
         some (postprocessTranslation t)) := by
  intro a
  induction a with
  | zero =>
    intro rem att t harem hbefore hsucc
    obtain ⟨rem', rfl⟩ : ∃ r, rem = r + 1 := ⟨rem - 1, by omega⟩
    rw [show att + 0 = att from rfl] at hsucc
    simp only [tryApiAux, hsucc]
    simp [failEvs]
  | succ a ih =>
    intro rem att t harem hbefore hsucc
    obtain ⟨rem', rfl⟩ : ∃ r, rem = r + 1 := ⟨rem - 1, by omega⟩
    have h0 : attemptOutcome beh text att = none := by
      simpa using hbefore 0 (by omega)
    have hb' : ∀ k, k < a → attemptOutcome beh text ((att + 1) + k) = none := by
      intro k hk
      have := hbefore (k + 1) (by omega)
      rwa [show att + (k + 1) = att + 1 + k from by omega] at this
    have hs' : attemptOutcome beh text ((att + 1) + a) = some t := by
      rwa [show att + (a + 1) = att + 1 + a from by omega] at hsucc
    simp only [tryApiAux, h0]
    rw [ih rem' (att + 1) t (by omega) hb' hs']
    rw [failEvs_succ]
    rw [show att + (a + 1) = att + 1 + a from by omega]
    simp [attemptEvs]

lemma tryApis_allFail (beh : String → ℕ → ApiResult) (text processed : String)
    (mr : ℕ) :
    ∀ (apis : List String),
      (∀ api ∈ apis, ∀ k, k < mr → attemptOutcome (beh api) text k = none) →
      tryApis beh text processed mr apis =
        ((apis.map (fun api => failEvs (beh api) api processed mr 0 mr)).flatten,
         (none, "failed", some "All API attempts exhausted")) := by
  intro apis
  induction apis with
  | nil => intro _; rfl
  | cons api rest ih =>
    intro h
    have haux := tryApiAux_allFail (beh api) text processed api mr mr 0 (by
      intro k hk
      simpa using h api (List.mem_cons_self _ _) k hk)
    simp only [tryApis, haux]
    rw [ih (fun a ha k hk => h a (List.mem_cons_of_mem _ ha) k hk)]
    simp

lemma tryApis_firstValid (beh : String → ℕ → ApiResult) (text processed : String)
    (mr : ℕ) :
    ∀ (apis : List String) (i : ℕ) (hi : i < apis.length) (a : ℕ) (t : String),
      a < mr →
      (∀ api ∈ apis.take i, ∀ k, k < mr → attemptOutcome (beh api) text k = none) →
      (∀ k, k < a → attemptOutcome (beh apis[i]) text k = none) →
      attemptOutcome (beh apis[i]) text a = some t →
      tryApis beh text processed mr apis =
        (((apis.take i).map (fun api => failEvs (beh api) api processed mr 0 mr)).flatten
            ++ failEvs (beh apis[i]) apis[i] processed mr 0 a
            ++ [Ev.call apis[i] processed (beh apis[i] a)],
         (some (postprocessTranslation t), apis[i], none)) := by
  intro apis
  induction apis with
  | nil =>
    intro i hi
    exact absurd hi (by simp)
  | cons api rest ih =>
    intro i hi a t ha hprev hbefore hsucc
    cases i with
    | zero =>
      simp only [List.getElem_cons_zero] at hbefore hsucc
      have haux := tryApiAux_firstValid (beh api) text processed api mr a mr 0 t ha
        (by intro k hk; simpa using hbefore k hk)
        (by simpa using hsucc)
      simp only [tryApis, haux]
      simp
    | succ j =>
      have hj : j < rest.length := by simpa using hi
      have haux := tryApiAux_allFail (beh api) text processed api mr mr 0 (by
        intro k hk
        simpa using hprev api (by simp [List.take_succ_cons]) k hk)
      simp only [tryApis, haux]
      simp only [List.getElem_cons_succ] at hbefore hsucc
      have ihapp := ih j hj a t ha
        (by
          intro a2 ha2 k hk
          exact hprev a2 (by simp [List.take_succ_cons, ha2]) k hk)
        hbefore hsucc
      rw [ihapp]
      simp [List.take_succ_cons, List.append_assoc]

/-- C1: whenever a provider call returns `success=true` with a translation
the validator accepts — and every earlier attempt (earlier provider in
order, or earlier attempt of the same provider) produced a provider error
or an invalid translation — `translate_with_retry` postprocesses that
translation and returns `(final_text, provider_name, None)` immediately:
the trace ends at that call, so no later attempt and no later provider is
ever tried.  The order tried is `apiOrder`: the primary API first, with the
secondary appended only when fallback is enabled, never reordered. -/
theorem translate_first_valid_wins
    (beh : String → ℕ → ApiResult) (primaryApi : String) (fb nt : Bool)
    (text : String) (mr i a : ℕ) (t : String)
    (hi : i < (apiOrder primaryApi fb).length) (ha : a < mr)
    (hok : beh (apiOrder primaryApi fb)[i] a = ApiResult.ok t)
    (hvalid : (validateTranslation text t).1 = true)
    (hprev : ∀ api ∈ (apiOrder primaryApi fb).take i, ∀ k, k < mr →
      attemptOutcome (beh api) text k = none)
    (hbefore : ∀ k, k < a →
      attemptOutcome (beh (apiOrder primaryApi fb)[i]) text k = none) :
    (translateWithRetry beh primaryApi fb nt text mr).2 =
      (some (postprocessTranslation t), (apiOrder primaryApi fb)[i], none) ∧
    (translateWithRetry beh primaryApi fb nt text mr).1 =
      (((apiOrder primaryApi fb).take i).map
          (fun api => failEvs (beh api) api (preprocessForTranslation text nt) mr 0 mr)).flatten
        ++ failEvs (beh (apiOrder primaryApi fb)[i]) (apiOrder primaryApi fb)[i]
            (preprocessForTranslation text nt) mr 0 a
        ++ [Ev.call (apiOrder primaryApi fb)[i] (preprocessForTranslation text nt)
            (beh (apiOrder primaryApi fb)[i] a)] := by
  have hout : attemptOutcome (beh (apiOrder primaryApi fb)[i]) text a = some t := by
    unfold attemptOutcome
    rw [hok]
    simp [hvalid]
  have h := tryApis_firstValid beh text (preprocessForTranslation text nt) mr
    (apiOrder primaryApi fb) i hi a t ha hprev hbefore hout
  constructor
  · simp only [translateWithRetry]
    rw [h]
  · simp only [translateWithRetry]
    rw [h]

/-- Witness for C1: the primary provider errors on its first attempt and
then returns a valid Arabic translation; the result is that translation
tagged `"nvidia"`, with no error. -/
theorem translate_first_valid_wins_witness :
    (translateWithRetry
        (fun _ k => match k with
          | 0 => ApiResult.err "timeout"
          | _ => ApiResult.ok "مرحبا")
        "nvidia" true true "Hello" 3).2 = (some "مرحبا", "nvidia", none) := by
  have hv : (validateTranslation "Hello" "مرحبا").1 = true :=
    (validate_iff_core "Hello" "مرحبا").mpr (by decide)
  have h := translate_first_valid_wins
    (fun _ k => match k with
      | 0 => ApiResult.err "timeout"
      | _ => ApiResult.ok "مرحبا")
    "nvidia" true true "Hello" 3 0 1 "مرحبا"
    (by simp [apiOrder]) (by omega)
    (by rfl)
    hv
    (by intro api hmem k hk; simp at hmem)
    (by
      intro k hk
      have hk0 : k = 0 := by omega
      subst hk0
      rfl)
  have h1 := h.1
  rw [show postprocessTranslation "مرحبا" = "مرحبا" from rfl] at h1
  exact h1

lemma countP_flatten_ones {α : Type} (p : α → Bool) :
    ∀ (L : List (List α)), (∀ l ∈ L, l.countP p = 1) →
      L.flatten.countP p = L.length := by
  intro L
  induction L with
  | nil => intro _; rfl
  | cons l L ih =>
    intro h
    rw [List.flatten_cons, List.countP_append, h l (List.mem_cons_self _ _),
      ih (fun x hx => h x (List.mem_cons_of_mem _ hx))]
    simp [Nat.add_comm]

/-- C2: with fallback disabled and a primary provider that fails (provider
error or validation failure) on every attempt, `translate_with_retry`
returns `(None, "failed", "All API attempts exhausted")`; the trace is
exactly `max_retries` provider calls with a backoff sleep of
`BACKOFF_MULTIPLIER ** attempt` seconds between consecutive attempts
(exponents 0 through `max_retries - 2`) and no sleep after the last
attempt. -/
theorem translate_exhaustion
    (beh : String → ℕ → ApiResult) (primaryApi : String) (nt : Bool)
    (text : String) (mr : ℕ)
    (hfail : ∀ api ∈ apiOrder primaryApi false, ∀ k, k < mr →
      attemptOutcome (beh api) text k = none) :
    (translateWithRetry beh primaryApi false nt text mr).2 =
      (none, "failed", some "All API attempts exhausted") ∧
    (translateWithRetry beh primaryApi false nt text mr).1 =
      ((List.range mr).map (fun a =>
        Ev.call (if primaryApi = "nvidia" then "nvidia" else "fanar")
            (preprocessForTranslation text nt)
            (beh (if primaryApi = "nvidia" then "nvidia" else "fanar") a) ::
          (if a < mr - 1 then [Ev.sleep (BACKOFF_MULTIPLIER ^ a)] else []))).flatten ∧
    (translateWithRetry beh primaryApi false nt text mr).1.countP isCallEv = mr := by
  have horder : apiOrder primaryApi false =
      [if primaryApi = "nvidia" then "nvidia" else "fanar"] := by
    rw [apiOrder]
    split <;> rfl
  have h := tryApis_allFail beh text (preprocessForTranslation text nt) mr
    (apiOrder primaryApi false) hfail
  rw [horder] at h
  have htrace : (translateWithRetry beh primaryApi false nt text mr).1 =
      failEvs (beh (if primaryApi = "nvidia" then "nvidia" else "fanar"))
        (if primaryApi = "nvidia" then "nvidia" else "fanar")
        (preprocessForTranslation text nt) mr 0 mr := by
    simp only [translateWithRetry]
    rw [horder, h]
    simp
  refine ⟨?_, ?_, ?_⟩
  · simp only [translateWithRetry]
    rw [horder, h]
  · rw [htrace]
    unfold failEvs
    congr 1
    apply List.map_congr_left
    intro x hx
    simp [attemptEvs]
  · rw [htrace]
    unfold failEvs
    have hOnes : ∀ l ∈ (List.range mr).map (fun k =>
        attemptEvs (beh (if primaryApi = "nvidia" then "nvidia" else "fanar"))
          (if primaryApi = "nvidia" then "nvidia" else "fanar")
          (preprocessForTranslation text nt) mr (0 + k)),
        l.countP isCallEv = 1 := by
      intro l hl
      obtain ⟨x, hx, rfl⟩ := List.mem_map.mp hl
      rcases Nat.lt_or_ge (0 + x) (mr - 1) with hcase | hcase
      · simp [attemptEvs, isCallEv, List.countP_cons, if_pos hcase]
      · simp [attemptEvs, isCallEv, List.countP_cons, if_neg (not_lt.mpr hcase)]
    rw [countP_flatten_ones isCallEv _ hOnes]
    simp

/-- Witness for C2: a provider that always errors, `max_retries = 3`, no
fallback: failure triple, and the trace is call, sleep 1, call, sleep 2,
call — three calls, sleeps of 2^0 and 2^1 between them, none after the
last. -/
theorem translate_exhaustion_witness :
    (translateWithRetry (fun _ _ => ApiResult.err "boom") "nvidia" false false "x" 3).2 =
      (none, "failed", some "All API attempts exhausted") ∧
    (translateWithRetry (fun _ _ => ApiResult.err "boom") "nvidia" false false "x" 3).1 =
      [Ev.call "nvidia" "x" (ApiResult.err "boom"), Ev.sleep 1,
       Ev.call "nvidia" "x" (ApiResult.err "boom"), Ev.sleep 2,
       Ev.call "nvidia" "x" (ApiResult.err "boom")] := by
  have h := translate_exhaustion (fun _ _ => ApiResult.err "boom") "nvidia" false "x" 3
    (by intro api hmem k hk; rfl)
  refine ⟨h.1, ?_⟩
  rw [h.2.1]
  rfl

lemma tryApiAux_call_input (beh : ℕ → ApiResult) (text processed api : String)
    (mr : ℕ) :
    ∀ (rem att : ℕ) (a i : String) (r : ApiResult),
      Ev.call a i r ∈ (tryApiAux beh text processed api mr att rem).1 →
      i = processed := by
  intro rem
  induction rem with
  | zero =>
    intro att a i r hmem
    simp [tryApiAux] at hmem
  | succ rem ih =>
    intro att a i r hmem
    rcases hout : attemptOutcome beh text att with _ | t
    · simp only [tryApiAux, hout] at hmem
      rcases List.mem_cons.mp hmem with hc | hrest
      · have := hc
        simp only [Ev.call.injEq] at this
        exact this.2.1
      · rcases List.mem_append.mp hrest with hb | he
        · by_cases hatt : att < mr - 1 <;> simp [hatt] at hb
        · exact ih (att + 1) a i r he
    · simp only [tryApiAux, hout] at hmem
      rcases List.mem_singleton.mp hmem with hc
      have := hc
      simp only [Ev.call.injEq] at this
      exact this.2.1

lemma tryApis_call_input (beh : String → ℕ → ApiResult) (text processed : String)
    (mr : ℕ) :
    ∀ (apis : List String) (a i : String) (r : ApiResult),
      Ev.call a i r ∈ (tryApis beh text processed mr apis).1 → i = processed := by
  intro apis
  induction apis with
  | nil =>
    intro a i r hmem
    simp [tryApis] at hmem
  | cons api rest ih =>
    intro a i r hmem
    rcases hr : (tryApiAux (beh api) text processed api mr 0 mr).2 with _ | t
    · simp only [tryApis, hr] at hmem
      rcases List.mem_append.mp hmem with h1 | h2
      · exact tryApiAux_call_input (beh api) text processed api mr mr 0 a i r h1
      · exact ih a i r h2
    · simp only [tryApis, hr] at hmem
      exact tryApiAux_call_input (beh api) text processed api mr mr 0 a i r hmem

/-- C9: every provider call made by `translate_with_retry` is on the
preprocessed text — `preprocess_for_translation` with the configured term
normalization (longest term first, case-insensitive, word boundaries) —
never on the literal original; concretely, a text containing "ChatGPT" is
sent with "ChatGPT" already rewritten to "the AI assistant". -/
theorem provider_calls_use_preprocessed :
    (∀ (beh : String → ℕ → ApiResult) (primaryApi : String) (fb nt : Bool)
        (text : String) (mr : ℕ) (a i : String) (r : ApiResult),
      Ev.call a i r ∈ (translateWithRetry beh primaryApi fb nt text mr).1 →
      i = preprocessForTranslation text nt) ∧
    preprocessForTranslation "ChatGPT is great" true = "the AI assistant is great" := by
  constructor
  · intro beh primaryApi fb nt text mr a i r hmem
    have hmem2 : Ev.call a i r ∈
        (tryApis beh text (preprocessForTranslation text nt) mr
          (apiOrder primaryApi fb)).1 := by
      simpa [translateWithRetry] using hmem
    exact tryApis_call_input beh text (preprocessForTranslation text nt) mr
      (apiOrder primaryApi fb) a i r hmem2
  · rfl

/-- Witness for C9: in a run on the text "ChatGPT is great", the single
provider call carries the normalized input. -/
theorem provider_calls_use_preprocessed_witness :
    "the AI assistant is great" = preprocessForTranslation "ChatGPT is great" true :=
  provider_calls_use_preprocessed.1 (fun _ _ => ApiResult.err "e") "nvidia" false true
    "ChatGPT is great" 1 "nvidia" "the AI assistant is great" (ApiResult.err "e")
    (by decide)

lemma foldl_pair_snd {α β γ : Type} (h : γ → α → γ) (g : α → β) :
    ∀ (l : List α) (c : γ) (s : List β),
      (l.foldl (fun a x => (h a.1 x, a.2 ++ [g x])) (c, s)).2 = s ++ l.map g := by
  intro l
  induction l with
  | nil => intro c s; simp
  | cons x xs ih =>
    intro c s
    simp only [List.foldl_cons]
    rw [ih]
    simp

lemma processRow_calls (tc : String → Option String × String × Option String)
    (df : Frame) (idx : ℕ) (cols : List String) (fr : Frame) (cls : List String) :
    (processRow tc df cols idx (fr, cls)).2 =
      cls ++ cols.map (fun col => pyStr ((df.cellAt col idx).getD none)) := by
  exact foldl_pair_snd
    (fun f col =>
      match (tc (pyStr ((df.cellAt col idx).getD none))).1 with
      | some t =>
        if t = "" then f
        else (f.setAt (col ++ "_ar") idx (some (.strV t))).setAt (col ++ "_api") idx
          (some (.strV (tc (pyStr ((df.cellAt col idx).getD none))).2.1))
      | none => f)
    (fun col => pyStr ((df.cellAt col idx).getD none)) cols fr cls

lemma dsloop_calls (tc : String → Option String × String × Option String)
    (cols : List String) (df : Frame) :
    ∀ (rows : List ℕ) (acc : Frame × List (ℕ × Frame) × List String),
      (rows.foldl (dsStep tc cols df) acc).2.2 =
        acc.2.2 ++ (rows.map (fun idx =>
          cols.map (fun col => pyStr ((df.cellAt col idx).getD none)))).flatten := by
  intro rows
  induction rows with
  | nil => intro acc; simp
  | cons r rows ih =>
    intro acc
    simp only [List.foldl_cons]
    rw [ih (dsStep tc cols df acc r)]
    have hstep : (dsStep tc cols df acc r).2.2 =
        acc.2.2 ++ cols.map (fun col => pyStr ((df.cellAt col r).getD none)) := by
      simp only [dsStep]
      exact processRow_calls tc df r cols acc.1 acc.2.2
    rw [hstep]
    simp [List.append_assoc]

/-- C10: `translate_dataset` renders every input cell with `str(...)` before
translating — the sequence of texts handed to the per-cell translator is
exactly `str(cell)` for every (row, requested column) pair in order, so a
missing cell is submitted as the literal string `"nan"`, and a null input
cell can receive a non-null translated output. -/
theorem dataset_cells_stringified :
    (∀ (tc : String → Option String × String × Option String)
        (cols : List String) (pa : Bool) (df : Frame) (n : ℕ)
        (files : List (String × Frame)) (nm : Option String),
      (translateDataset tc cols pa df n false files nm).calls =
        ((List.range n).map (fun idx =>
          cols.map (fun col => pyStr ((df.cellAt col idx).getD none)))).flatten) ∧
    (translateDataset (fun s => (some ("AR:" ++ s), "nvidia", none)) ["text"] true
        (Frame.mk [("text", [none])]) 1 false [] none).calls = ["nan"] ∧
    (translateDataset (fun s => (some ("AR:" ++ s), "nvidia", none)) ["text"] true
        (Frame.mk [("text", [none])]) 1 false [] none).frame.cellAt "text_ar" 0 =
      some (some (CellVal.strV "AR:nan")) := by
  refine ⟨?_, by rfl, by rfl⟩
  intro tc cols pa df n files nm
  simp only [translateDataset]
  rw [dsloop_calls]
  simp [← List.range_eq_range']

lemma frame_hasCol_iff (f : Frame) (name : String) :
    f.hasCol name = true ↔ name ∈ f.colNames := by
  unfold Frame.hasCol Frame.colNames
  rw [List.any_eq_true]
  constructor
  · rintro ⟨p, hp, he⟩
    rw [List.mem_map]
    exact ⟨p, hp, by simpa using he⟩
  · intro hm
    obtain ⟨p, hp, rfl⟩ := List.mem_map.mp hm
    exact ⟨p, hp, by simp⟩

lemma setCol_colNames (f : Frame) (name : String) (vals : List (Option CellVal))
    (h : f.hasCol name = true) :
    (f.setCol name vals).colNames = f.colNames := by
  unfold Frame.setCol
  rw [if_pos h]
  unfold Frame.colNames
  rw [List.map_map]
  apply List.map_congr_left
  intro p _
  by_cases hb : (p.1 == name) = true <;> simp [Function.comp, hb]

lemma setCol_getCol_self (f : Frame) (name : String) (vals : List (Option CellVal))
    (h : f.hasCol name = true) :
    (f.setCol name vals).getCol name = some vals := by
  unfold Frame.setCol
  rw [if_pos h]
  obtain ⟨cols⟩ := f
  unfold Frame.hasCol at h
  simp only at h
  unfold Frame.getCol
  simp only
  induction cols with
  | nil => simp at h
  | cons q rest ih =>
    rw [List.map_cons]
    by_cases hq : (q.1 == name) = true
    · rw [if_pos hq]
      rw [List.find?_cons_of_pos _ (by simpa using hq)]
      rfl
    · rw [if_neg hq]
      rw [List.find?_cons_of_neg _ (by simpa using hq)]
      simp only [List.any_cons, Bool.or_eq_true] at h
      rcases h with h1 | h2
      · exact absurd h1 hq
      · exact ih h2

lemma find?_name_map_other (nm name : String) (vals : List (Option CellVal))
    (h : nm ≠ name) :
    ∀ (cols : List (String × List (Option CellVal))),
      List.find? (fun p => p.1 == name)
        (cols.map (fun p => if (p.1 == nm) = true then (p.1, vals) else p)) =
      List.find? (fun p => p.1 == name) cols := by
  intro cols
  induction cols with
  | nil => rfl
  | cons q rest ih =>
    rw [List.map_cons]
    by_cases hqn : (q.1 == name) = true
    · have hq1 : q.1 = name := by simpa using hqn
      have hnm : (q.1 == nm) = false := by
        rw [hq1]
        simpa using Ne.symm h
      rw [if_neg (by simp [hnm])]
      simp only [List.find?_cons, hqn]
    · have hqn2 : (q.1 == name) = false := by simpa using hqn
      by_cases hq : (q.1 == nm) = true
      · rw [if_pos hq]
        simp only [List.find?_cons, hqn2]
        exact ih
      · rw [if_neg hq]
        simp only [List.find?_cons, hqn2]
        exact ih

lemma setCol_getCol_ne (f : Frame) (nm : String) (vals : List (Option CellVal))
    (name : String) (h : nm ≠ name) :
    (f.setCol nm vals).getCol name = f.getCol name := by
  unfold Frame.setCol
  by_cases hc : f.hasCol nm = true
  · rw [if_pos hc]
    obtain ⟨cols⟩ := f
    unfold Frame.getCol
    simp only
    rw [find?_name_map_other nm name vals h cols]
  · rw [if_neg hc]
    obtain ⟨cols⟩ := f
    unfold Frame.getCol
    simp only
    rw [List.find?_append]
    have hnone : List.find? (fun p => p.1 == name) [(nm, vals)] = none := by
      rw [List.find?_cons_of_neg _ (by simpa using h)]
      rfl
    rw [hnone]
    simp

lemma setCol_hasCol_of_hasCol (f : Frame) (nm : String) (vals : List (Option CellVal))
    (name : String) (h : f.hasCol nm = true) :
    (f.setCol nm vals).hasCol name = f.hasCol name := by
  by_cases h1 : f.hasCol name = true
  · rw [h1]
    rw [frame_hasCol_iff] at h1 ⊢
    rwa [setCol_colNames f nm vals h]
  · have h1f : f.hasCol name = false := by
      cases hv : f.hasCol name
      · rfl
      · exact absurd hv h1
    rw [h1f]
    cases hv : (f.setCol nm vals).hasCol name
    · rfl
    · rw [frame_hasCol_iff, setCol_colNames f nm vals h, ← frame_hasCol_iff] at hv
      rw [hv] at h1f
      exact h1f

lemma copy_colNames (n : ℕ) :
    ∀ (cols : List (String × List (Option CellVal))) (result : Frame),
      (cols.foldl (fun acc p =>
        if acc.hasCol p.1 then acc.setCol p.1 (alignTo n p.2) else acc) result).colNames
        = result.colNames := by
  intro cols
  induction cols with
  | nil => intro result; rfl
  | cons q rest ih =>
    intro result
    rw [List.foldl_cons]
    rw [ih]
    by_cases hc : result.hasCol q.1 = true
    · rw [if_pos hc]
      exact setCol_colNames result q.1 _ hc
    · rw [if_neg hc]

lemma copy_getCol_all_ne (n : ℕ) :
    ∀ (cols : List (String × List (Option CellVal))) (result : Frame) (name : String),
      (∀ p ∈ cols, (p.1 == name) = false) →
      (cols.foldl (fun acc p =>
        if acc.hasCol p.1 then acc.setCol p.1 (alignTo n p.2) else acc) result).getCol name
        = result.getCol name := by
  intro cols
  induction cols with
  | nil => intro result name _; rfl
  | cons q rest ih =>
    intro result name h
    rw [List.foldl_cons]
    have hq : (q.1 == name) = false := h q (List.mem_cons_self _ _)
    have hqne : q.1 ≠ name := by simpa using hq
    rw [ih _ name (fun p hp => h p (List.mem_cons_of_mem _ hp))]
    by_cases hc : result.hasCol q.1 = true
    · rw [if_pos hc]
      exact setCol_getCol_ne result q.1 _ name hqne
    · rw [if_neg hc]

lemma copy_getCol_found (n : ℕ) :
    ∀ (cols : List (String × List (Option CellVal))) (result : Frame)
      (name : String) (vals : List (Option CellVal)),
      (cols.map Prod.fst).Nodup →
      List.find? (fun p => p.1 == name) cols = some (name, vals) →
      result.hasCol name = true →
      (cols.foldl (fun acc p =>
        if acc.hasCol p.1 then acc.setCol p.1 (alignTo n p.2) else acc) result).getCol name
        = some (alignTo n vals) := by
  intro cols
  induction cols with
  | nil =>
    intro result name vals _ hfind _
    simp at hfind
  | cons q rest ih =>
    intro result name vals hnodup hfind hres
    rw [List.map_cons, List.nodup_cons] at hnodup
    obtain ⟨hhead, htail⟩ := hnodup
    rw [List.foldl_cons]
    by_cases hq : (q.1 == name) = true
    · have hq1 : q.1 = name := by simpa using hq
      simp only [List.find?_cons, hq] at hfind
      have hq2 : q = (name, vals) := by
        cases hfind
        rfl
      rw [if_pos (by rw [hq1]; exact hres)]
      have hrest : ∀ p ∈ rest, (p.1 == name) = false := by
        intro p hp
        by_cases hb : (p.1 == name) = true
        · have : p.1 = name := by simpa using hb
          rw [← hq1] at this
          exact absurd (this ▸ List.mem_map_of_mem Prod.fst hp) hhead
        · simpa using hb
      rw [copy_getCol_all_ne n rest _ name hrest]
      rw [hq2]
      exact setCol_getCol_self result name (alignTo n vals) hres
    · have hq2 : (q.1 == name) = false := by simpa using hq
      simp only [List.find?_cons, hq2] at hfind
      by_cases hc : result.hasCol q.1 = true
      · rw [if_pos hc]
        exact ih _ name vals htail hfind
          (by rw [setCol_hasCol_of_hasCol result q.1 _ name hc]; exact hres)
      · rw [if_neg hc]
        exact ih _ name vals htail hfind hres

/-- C6 (amended): loading a checkpoint never signals an error; the copy
loop copies exactly the columns present in both the checkpoint and the
current result (index-aligned to the result's row count), silently drops
checkpoint columns the result lacks, and leaves result columns absent from
the checkpoint untouched. -/
theorem copy_checkpoint_silent_subset (n : ℕ) (result ckpt : Frame)
    (hnodup : ckpt.colNames.Nodup) :
    (copyCheckpointCols n result ckpt).colNames = result.colNames ∧
    (∀ name, ckpt.hasCol name = false →
      (copyCheckpointCols n result ckpt).getCol name = result.getCol name) ∧
    (∀ name vals, ckpt.getCol name = some vals → result.hasCol name = true →
      (copyCheckpointCols n result ckpt).getCol name = some (alignTo n vals)) := by
  refine ⟨copy_colNames n ckpt.cols result, ?_, ?_⟩
  · intro name hno
    apply copy_getCol_all_ne
    intro p hp
    unfold Frame.hasCol at hno
    rw [List.any_eq_false] at hno
    have := hno p hp
    simpa using this
  · intro name vals hget hres
    unfold Frame.getCol at hget
    obtain ⟨q, hfq, hq2⟩ := Option.map_eq_some'.mp hget
    have hq1 : q.1 = name := by
      have := List.find?_some hfq
      simpa using this
    have hqpair : q = (name, vals) := by
      obtain ⟨a, b⟩ := q
      simp only at hq1 hq2
      rw [hq1, hq2]
    rw [hqpair] at hfq
    exact copy_getCol_found n ckpt.cols result name vals hnodup hfq hres

/-- Witness for the amended C6 at a concrete mismatched checkpoint: the
shape is preserved, the matching column is copied aligned, the missing
output column is untouched. -/
theorem copy_checkpoint_silent_subset_witness :
    (copyCheckpointCols 2 c6Result c6Ckpt).colNames = ["text", "text_ar"] ∧
    (copyCheckpointCols 2 c6Result c6Ckpt).getCol "text_ar" = some [none, none] ∧
    (copyCheckpointCols 2 c6Result c6Ckpt).getCol "text" =
      some [some (.strV "a"), none] := by
  have h := copy_checkpoint_silent_subset 2 c6Result c6Ckpt (by decide)
  refine ⟨?_, ?_, ?_⟩
  · rw [h.1]
    rfl
  · rw [h.2.1 "text_ar" (by decide)]
    rfl
  · rw [h.2.2 "text" [some (.strV "a")] (by decide) (by decide)]
    rfl

/-- C6 counterexample: loading a checkpoint whose columns (`text`,
`extra`) do not match the run's expected output columns (`text`,
`text_ar`) is not surfaced as any error — `_load_checkpoint` returns
normally, quietly copying the matching column `text` (null-padding the
tail), dropping `extra`, and leaving `text_ar` as it was. -/
theorem loadCheckpoint_ignores_schema_mismatch :
    loadCheckpoint 2 c6Result [("checkpoint_1.csv", c6Ckpt)] none =
      (Frame.mk [("text", [some (.strV "a"), none]), ("text_ar", [none, none])], 1) := by
  rfl

set_option maxHeartbeats 4000000 in
set_option maxRecDepth 100000 in
/-- C5: checkpoint resume is not frame-preserving outside the snapshot.
In a 60-row run (same mechanism as the spec's 200-row scenario) that saved
`checkpoint_50`, resuming copies each checkpoint column over the whole
60-row result with index alignment, so every original-column cell at
row index ≥ 50 becomes null instead of keeping its input value: row 49
keeps its copied value, while row 55's original `text` cell is null in the
output even though the input holds 55. -/
theorem checkpoint_resume_nulls_tail :
    c5FirstRun.checkpoints.map Prod.fst = [50] ∧
    c5ResumedRun.frame.cellAt "text" 49 = some (some (CellVal.intV 49)) ∧
    c5ResumedRun.frame.cellAt "text" 55 = some none ∧
    c5Input.cellAt "text" 55 = some (some (CellVal.intV 55)) := by
  refine ⟨?_, ?_, ?_, ?_⟩ <;> rfl
